import Mathlib

/-!
# The expiring cache of `pokedex` (`src/main.go`)

A shallow embedding of the `Cache` type of `src/main.go` (`NewCache`, `Cache.Add`,
`Cache.Get`, `Cache.reapLoop`), of the fetch path built on it (`getData`,
`makeRequest`), of the way `main` constructs the cache and of the argument extraction
in the command loop of `main`, followed by theorems about them.

Modelling conventions.

* A Go `map[string]cacheEntry` is an association list with pairwise distinct keys
  (`AList`); `m[k] = v` is `AList.insert`, `delete(m, k)` is `AList.erase`,
  `v, ok := m[k]` is `AList.lookup`, and `for k, v := range m` folds over the
  entries.
* A `time.Time` produced by `time.Now()` or by a `time.Ticker` carries a reading of
  the monotonic clock: a signed 64-bit count of nanoseconds since process start,
  never negative.  `time.Time.Sub` on two such values is the saturating difference
  of the readings.
* `time.Now()` is an input of the operation that calls it.
* `log.Fatal` ends the process with exit status 1; an operation that can reach it
  yields a `Proc` outcome.
* The reaper goroutine runs alongside the callers: an execution is a list of phases,
  in each of which callers complete operations and then `reapLoop` handles ticks it
  has received.  The ticks are inputs; the sweeps are those `reapLoop` performs.
* A Go `string` is a Lean `String`; `strings.Split(s, " ")` cuts at every space
  character.  An index expression out of range is a run-time panic, an
  `Except.error`.
-/

namespace Pokedex

/-! ## Data model -/

/-- A Go `[]byte` value: the `nil` slice, or a (possibly empty) sequence of bytes. -/
inductive ByteSlice where
  | nil : ByteSlice
  | bytes (data : List (Fin 256)) : ByteSlice
  deriving DecidableEq, Repr

/-- A `time.Duration`: a count of nanoseconds. -/
abbrev Duration := Int

/-- Largest `time.Duration` (`1<<63 - 1`). -/
def maxDuration : Duration := 2 ^ 63 - 1

/-- Smallest `time.Duration` (`-1 << 63`). -/
def minDuration : Duration := -(2 ^ 63)

/-- A `time.Time` with a monotonic clock reading `mono` (nanoseconds, `int64`, non-negative). -/
structure Time where
  mono : Nat
  inRange : mono < 2 ^ 63
  deriving DecidableEq, Repr

/-- The duration `t - u` of `time.Time.Sub`, saturated at `minDuration` and `maxDuration`. -/
def Time.Sub (t u : Time) : Duration :=
  let d : Int := (t.mono : Int) - (u.mono : Int)
  if d > maxDuration then maxDuration
  else if d < minDuration then minDuration
  else d

/-- The Go struct `cacheEntry`. -/
structure cacheEntry where
  createdAt : Time
  val : ByteSlice
  deriving DecidableEq, Repr

/-- A Go `map[string]cacheEntry`. -/
abbrev Store := AList (fun _ : String => cacheEntry)

/-- The Go struct `Cache`, without its mutex: `cache` is the map, `interval` the
configured duration.  The mutex is modelled separately (see `CacheVal`). -/
structure Cache where
  cache : Store
  interval : Duration

/-! ## Operations of the cache -/

/-- The store and interval set up by `NewCache(interval)`.  The reaper goroutine
that `NewCache` starts is `Cache.reapLoop`. -/
def NewCache (interval : Duration) : Cache :=
  { cache := ∅, interval := interval }

/-- The body of `Cache.Add(key, val)`, where `now` is the value of `time.Now()`:
`cache.cache[key] = cacheEntry{createdAt: now, val: val}`. -/
def Cache.Add (cache : Cache) (now : Time) (key : String) (val : ByteSlice) : Cache :=
  { cache with cache := cache.cache.insert key { createdAt := now, val := val } }

/-- The body of `Cache.Get(key)`: the returned pair `([]byte, bool)` together with the
cache after the call. -/
def Cache.Get (cache : Cache) (key : String) : (ByteSlice × Bool) × Cache :=
  match cache.cache.lookup key with
  | none => ((ByteSlice.nil, false), cache)
  | some val => ((val.val, true), cache)

/-- One iteration of the `for tick := range ticker.C` loop of `Cache.reapLoop`:
ranges over the entries of the map and deletes every key `k` whose entry `v` has
`tick.Sub(v.createdAt) > cache.interval`. -/
def Cache.sweep (cache : Cache) (tick : Time) : Cache :=
  { cache with
    cache := cache.cache.entries.foldl
      (fun m kv => if tick.Sub kv.2.createdAt > cache.interval then m.erase kv.1 else m)
      cache.cache }

/-- The function `Cache.reapLoop` run on the ticks `ticks` delivered by its ticker.
`time.NewTicker` panics when the interval is not positive. -/
def Cache.reapLoop (cache : Cache) (ticks : List Time) : Except String Cache :=
  if cache.interval ≤ 0 then
    Except.error "non-positive interval for NewTicker"
  else
    Except.ok (ticks.foldl Cache.sweep cache)

/-! ## Histories of cache operations -/

/-- An operation on the store: a `Cache.Add(key, val)`, a `Cache.Get(key)`, or one
sweep of the reaper. -/
inductive Op where
  | add (key : String) (val : ByteSlice) : Op
  | get (key : String) : Op
  | sweep : Op
  deriving DecidableEq, Repr

/-- An operation together with the instant at which it runs: the value of
`time.Now()` for an `add`, the tick received from the ticker for a `sweep`. -/
structure Event where
  instant : Time
  op : Op
  deriving DecidableEq, Repr

/-- The cache after one event. -/
def Cache.step (cache : Cache) (e : Event) : Cache :=
  match e.op with
  | Op.add key val => cache.Add e.instant key val
  | Op.get key => (cache.Get key).2
  | Op.sweep => cache.sweep e.instant

/-- The cache after a history of events, oldest first. -/
def Cache.run (cache : Cache) (es : List Event) : Cache :=
  es.foldl Cache.step cache

/-- Whether the event is a `Cache.Add` on `key`. -/
def Event.addsKey (key : String) (e : Event) : Bool :=
  match e.op with
  | Op.add k _ => decide (k = key)
  | _ => false

/-- Whether the event is a `Cache.Get`. -/
def Event.isGet (e : Event) : Bool :=
  match e.op with
  | Op.get _ => true
  | _ => false

/-! ## The reaper alongside the callers -/

/-- Whether the event is a sweep. -/
def Event.isSweep (e : Event) : Bool :=
  match e.op with
  | Op.sweep => true
  | _ => false

/-- The first `n` instants at which a ticker created at instant `start` with period `d`
fires: `start + d`, `start + 2 * d`, and so on. -/
def tickerTicks (start : Int) (d : Duration) (n : Nat) : List Int :=
  (List.range n).map (fun (i : Nat) => start + ((i : Int) + 1) * d)

/-- An execution of the callers and of the reaper goroutine on one cache, given as
phases.  In a phase `(es, ws)` the callers first complete the operations `es` (each
`Cache.Add` and `Cache.Get` at its own instant), then the loop of `reapLoop` handles the
ticks `ws` it has received from its ticker, one sweep per tick.  A tick is handled once
the goroutine has received it and taken the lock, so operations of callers whose instant
is later than a tick may come before the sweep for that tick. -/
def Cache.runWithReaper (cache : Cache) :
    List (List Event × List Time) → Except String Cache
  | [] => Except.ok cache
  | (es, ws) :: rest =>
    match (cache.run es).reapLoop ws with
    | Except.ok cache1 => cache1.runWithReaper rest
    | Except.error e => Except.error e

/-- The results of the `Cache.Get` calls of a history, in the order they run. -/
def Cache.results (cache : Cache) : List Event → List (ByteSlice × Bool)
  | [] => []
  | e :: es =>
    match e.op with
    | Op.get key => (cache.Get key).1 :: (cache.step e).results es
    | _ => (cache.step e).results es

/-- The results of the `Cache.Get` calls of the callers in an execution with the
reaper, in the order they run. -/
def Cache.resultsWithReaper (cache : Cache) :
    List (List Event × List Time) → Except String (List (ByteSlice × Bool))
  | [] => Except.ok []
  | (es, ws) :: rest =>
    match (cache.run es).reapLoop ws with
    | Except.ok cache1 =>
      match cache1.resultsWithReaper rest with
      | Except.ok rs => Except.ok (cache.results es ++ rs)
      | Except.error e => Except.error e
    | Except.error e => Except.error e

/-- The ticks handled by the reaper in the phases, in order. -/
def phaseTicks (phases : List (List Event × List Time)) : List Time :=
  (phases.map (fun ph => ph.2)).flatten

/-- The operations of the phases in the order they run, the sweep for each tick
included. -/
def phaseEvents (phases : List (List Event × List Time)) : List Event :=
  (phases.map (fun ph => ph.1 ++ ph.2.map (fun w => { instant := w, op := Op.sweep }))).flatten

/-! ## The fetch path -/

/-- What the HTTP client yields for one request made by `makeRequest`. -/
structure HttpExchange where
  /-- Whether `http.Get(url)` returned `err != nil`. -/
  getErr : Bool
  /-- The field `res.StatusCode`. -/
  StatusCode : Int
  /-- The bytes returned by `io.ReadAll(res.Body)`. -/
  body : ByteSlice
  /-- Whether `io.ReadAll(res.Body)` returned `err != nil`. -/
  readErr : Bool
  /-- Whether `res.Body.Close()` returned a non-nil error. -/
  closeErr : Bool
  deriving DecidableEq, Repr

/-- The remote side: the exchange obtained for a URL, given the URLs requested so far
(oldest first). -/
abbrev Fetcher := List String → String → HttpExchange

/-- How a call ends: it returns a value to its caller, or it reaches `log.Fatal`,
which prints and ends the process with exit status 1 without returning. -/
inductive Proc (α : Type) where
  | ret (a : α) : Proc α
  | fatal : Proc α
  deriving DecidableEq, Repr

/-- The function `makeRequest(url)`: its outcome, and the list of URLs requested so
far after the call. -/
def makeRequest (net : Fetcher) (requests : List String) (url : String) :
    Proc ByteSlice × List String :=
  let res := net requests url
  let requests1 := requests ++ [url]
  if res.getErr then (Proc.fatal, requests1)
  else if res.StatusCode > 299 || res.closeErr then (Proc.fatal, requests1)
  else if res.readErr then (Proc.fatal, requests1)
  else (Proc.ret res.body, requests1)

/-- The function `getData(url, cache)`, where `now` is the value `time.Now()` takes
inside `cache.Add`: its outcome, the cache and the list of requested URLs when the
call ends. -/
def getData (net : Fetcher) (now : Time) (url : String) (cache : Cache)
    (requests : List String) : Proc ByteSlice × Cache × List String :=
  match cache.Get url with
  | ((body, true), cache1) => (Proc.ret body, cache1, requests)
  | ((_, false), cache1) =>
    match makeRequest net requests url with
    | (Proc.ret body, requests1) => (Proc.ret body, cache1.Add now url body, requests1)
    | (Proc.fatal, requests1) => (Proc.fatal, cache1, requests1)

/-- A caller that issues `getData` for each `(now, url)` of `calls` in turn, as the
command loop of `main` does through its callbacks: the bodies returned so far, and the
state when the last call returned or the process ended. -/
def getDataSeq (net : Fetcher) :
    List (Time × String) → Cache → List String → Proc (List ByteSlice) × Cache × List String
  | [], cache, requests => (Proc.ret [], cache, requests)
  | (now, url) :: rest, cache, requests =>
    match getData net now url cache requests with
    | (Proc.fatal, cache1, requests1) => (Proc.fatal, cache1, requests1)
    | (Proc.ret body, cache1, requests1) =>
      match getDataSeq net rest cache1 requests1 with
      | (Proc.ret bodies, cache2, requests2) => (Proc.ret (body :: bodies), cache2, requests2)
      | (Proc.fatal, cache2, requests2) => (Proc.fatal, cache2, requests2)

/-- A fetcher that answers every request with status 200 and the body `[1, 2, 3]`. -/
def okFetcher : Fetcher :=
  fun _ _ => { getErr := false, StatusCode := 200, body := ByteSlice.bytes [1, 2, 3],
               readErr := false, closeErr := false }

/-- A fetcher that answers every request with status 404 and an empty body. -/
def notFoundFetcher : Fetcher :=
  fun _ _ => { getErr := false, StatusCode := 404, body := ByteSlice.bytes [],
               readErr := false, closeErr := false }

/-! ## How `main` builds the cache -/

/-- A value of the Go struct type `Cache` as it sits in memory.  The map field holds a
reference to a map object; the `sync.Mutex` is held by value, so a mutex is identified
by the address of the struct value that contains it. -/
structure CacheVal where
  /-- Reference to the map object. -/
  cache : Nat
  /-- State of the mutex `mu`: `true` when locked. -/
  mu : Bool
  interval : Duration
  deriving DecidableEq, Repr

/-- The part of the program memory that concerns caches. -/
structure Memory where
  /-- The `Cache` struct values, by address. -/
  structs : List (Nat × CacheVal)
  /-- Number of map objects allocated so far. -/
  maps : Nat
  /-- Receivers (addresses) of the running `reapLoop` goroutines. -/
  reapers : List Nat
  deriving DecidableEq, Repr

/-- The function `NewCache(interval)` on memory: allocates a map, allocates the struct
`&Cache{...}` with an unlocked mutex, starts `go newCache.reapLoop()` on that pointer,
and returns the pointer. -/
def NewCachePtr (mem : Memory) (interval : Duration) : Nat × Memory :=
  let newCache := mem.structs.length
  (newCache,
    { structs := mem.structs ++ [(newCache, { cache := mem.maps, mu := false, interval := interval })],
      maps := mem.maps + 1,
      reapers := mem.reapers ++ [newCache] })

/-- The duration `100 * time.Second` in nanoseconds. -/
def hundredSeconds : Duration := 100 * 1000000000

/-- The statement `pageTracker := config{..., cache: *NewCache(100 * time.Second)}` of
`main`: the struct value behind the pointer returned by `NewCache` is copied into the
field `pageTracker.cache`.  Returns the address `&pageTracker.cache`, which every
command passes to `getData` as `&cfg.cache`, and the memory. -/
def mainInit : Option (Nat × Memory) :=
  let (newCache, mem) := NewCachePtr { structs := [], maps := 0, reapers := [] } hundredSeconds
  match mem.structs.lookup newCache with
  | none => none
  | some v =>
    let pageTrackerCache := mem.structs.length
    some (pageTrackerCache, { mem with structs := mem.structs ++ [(pageTrackerCache, v)] })

/-- The call `cache.mu.Lock()` with receiver `cache` (an address): locks the mutex of
the struct at that address; `none` when the caller has to wait because that mutex is
locked (or the address holds no cache). -/
def Memory.Lock (mem : Memory) (cache : Nat) : Option Memory :=
  match mem.structs.lookup cache with
  | none => none
  | some v =>
    if v.mu then none
    else some { mem with
      structs := mem.structs.map (fun av => if av.1 = cache then (av.1, { av.2 with mu := true }) else av) }

/-- The map object that an operation with receiver `cache` reads and writes. -/
def Memory.mapOf (mem : Memory) (cache : Nat) : Option Nat :=
  (mem.structs.lookup cache).map (fun v => v.cache)

/-! ## Command dispatch in `main` -/

/-- The words of `strings.Split(s, " ")` for the remaining characters of `s`, where
`cur` holds the characters of the word being read, last one first: a word ends at
each space, and the last word ends with the string. -/
def splitSpaces : List Char → List Char → List String
  | [], cur => [String.mk cur.reverse]
  | c :: cs, cur =>
    if c = ' ' then String.mk cur.reverse :: splitSpaces cs []
    else splitSpaces cs (c :: cur)

/-- The call `strings.Split(s, " ")`. -/
def Split (s : String) : List String :=
  splitSpaces s.data []

/-- A Go index expression `xs[i]` on a slice of strings: the element, or the run-time
panic raised when `i` is not below `len(xs)`. -/
def index (xs : List String) (i : Nat) : Except String String :=
  match xs.get? i with
  | some x => Except.ok x
  | none => Except.error "index out of range"

/-- The keys of the map returned by `getCommands()`. -/
def getCommands : List String :=
  ["help", "map", "mapb", "explore", "catch", "inspect", "pokedex", "exit"]

/-- What one round of the command loop of `main` does with the line it read. -/
inductive Dispatch where
  /-- The line is empty: `continue`. -/
  | skipped : Dispatch
  /-- The first word is no command: prints "Command not found". -/
  | notFound : Dispatch
  /-- The callback of command `name` is called with these two arguments. -/
  | call (name areaToExplore pokemonName : String) : Dispatch
  deriving DecidableEq, Repr

/-- One round of the `for` loop of `main` on the text of the scanned line, up to the
call of the callback; `Except.error` is a run-time panic.  `len(text) == 0` holds
exactly when the text has no character. -/
def dispatch (text : String) : Except String Dispatch :=
  if text.length = 0 then Except.ok Dispatch.skipped
  else
    let cmdExp := Split text
    match index cmdExp 0 with
    | Except.error e => Except.error e
    | Except.ok cmd0 =>
      if cmd0 ∈ getCommands then
        match (if cmd0 = "explore" ∧ cmdExp.length > 1 then index cmdExp 1
               else Except.ok "") with
        | Except.error e => Except.error e
        | Except.ok areaToExplore =>
          match (if cmd0 = "catch" ∧ cmdExp.length > 1 ∨ cmd0 = "inspect" then index cmdExp 1
                 else Except.ok "") with
          | Except.error e => Except.error e
          | Except.ok pokemonName => Except.ok (Dispatch.call cmd0 areaToExplore pokemonName)
      else Except.ok Dispatch.notFound

end Pokedex

namespace Pokedex

/-! ## Lemmas -/

theorem Time.Sub_eq (t u : Time) : t.Sub u = (t.mono : Int) - (u.mono : Int) := by
  have ht := t.inRange
  have hu := u.inRange
  have h1 : ¬ ((t.mono : Int) - (u.mono : Int) > 2 ^ 63 - 1) := by omega
  have h2 : ¬ ((t.mono : Int) - (u.mono : Int) < -(2 ^ 63)) := by omega
  simp only [Time.Sub, maxDuration, minDuration, h1, h2, if_false]

/-- Deleting keys never makes an absent key present. -/
theorem lookup_foldl_erase_none (P : cacheEntry → Prop) [DecidablePred P]
    (l : List (Σ _ : String, cacheEntry)) (m : Store) (k : String)
    (h : m.lookup k = none) :
    (l.foldl (fun m kv => if P kv.2 then m.erase kv.1 else m) m).lookup k = none := by
  induction l generalizing m with
  | nil => simpa using h
  | cons kv l ih =>
    rw [List.foldl_cons]
    apply ih
    by_cases hP : P kv.2
    · rw [if_pos hP]
      by_cases hk : k = kv.1
      · subst hk
        exact AList.lookup_erase _ _
      · rw [AList.lookup_erase_ne hk]
        exact h
    · rw [if_neg hP]
      exact h

/-- A key with a visited entry that satisfies the deletion test is absent afterwards. -/
theorem lookup_foldl_erase_hit (P : cacheEntry → Prop) [DecidablePred P]
    (l : List (Σ _ : String, cacheEntry)) (m : Store) (k : String)
    (h : ∃ kv ∈ l, kv.1 = k ∧ P kv.2) :
    (l.foldl (fun m kv => if P kv.2 then m.erase kv.1 else m) m).lookup k = none := by
  induction l generalizing m with
  | nil =>
    obtain ⟨kv, hmem, _⟩ := h
    cases hmem
  | cons kv l ih =>
    rw [List.foldl_cons]
    obtain ⟨kv1, hmem, hk, hP⟩ := h
    rcases List.mem_cons.mp hmem with heq | htail
    · subst heq
      apply lookup_foldl_erase_none
      rw [if_pos hP, ← hk]
      exact AList.lookup_erase _ _
    · exact ih _ ⟨kv1, htail, hk, hP⟩

/-- A key none of whose visited entries satisfies the deletion test keeps its entry. -/
theorem lookup_foldl_erase_miss (P : cacheEntry → Prop) [DecidablePred P]
    (l : List (Σ _ : String, cacheEntry)) (m : Store) (k : String)
    (h : ∀ kv ∈ l, kv.1 = k → ¬ P kv.2) :
    (l.foldl (fun m kv => if P kv.2 then m.erase kv.1 else m) m).lookup k = m.lookup k := by
  induction l generalizing m with
  | nil => rfl
  | cons kv l ih =>
    rw [List.foldl_cons, ih _ (fun kv1 h1 => h kv1 (List.mem_cons_of_mem _ h1))]
    by_cases hP : P kv.2
    · rw [if_pos hP]
      have hk : k ≠ kv.1 := fun hk => h kv (List.mem_cons_self _ _) hk.symm hP
      exact AList.lookup_erase_ne hk
    · rw [if_neg hP]

/-- The entry of a key after one sweep: the entry it had, unless the tick is later
than `createdAt` by more than the interval. -/
theorem lookup_sweep (cache : Cache) (tick : Time) (k : String) :
    (cache.sweep tick).cache.lookup k =
      match cache.cache.lookup k with
      | none => none
      | some v => if tick.Sub v.createdAt > cache.interval then none else some v := by
  unfold Cache.sweep
  simp only
  cases h : cache.cache.lookup k with
  | none => exact lookup_foldl_erase_none (fun v => tick.Sub v.createdAt > cache.interval) _ _ _ h
  | some v =>
    have hv : (⟨k, v⟩ : Σ _ : String, cacheEntry) ∈ cache.cache.entries :=
      AList.mem_lookup_iff.mp (by rw [h]; exact rfl)
    by_cases hP : tick.Sub v.createdAt > cache.interval
    · simp only [if_pos hP]
      exact lookup_foldl_erase_hit (fun v => tick.Sub v.createdAt > cache.interval) _ _ _
        ⟨⟨k, v⟩, hv, rfl, hP⟩
    · simp only [if_neg hP]
      rw [lookup_foldl_erase_miss (fun v => tick.Sub v.createdAt > cache.interval) _ _ _, h]
      rintro ⟨k1, v1⟩ hmem hk
      simp only at hk
      subst hk
      have h1 : v1 ∈ cache.cache.lookup k1 := AList.mem_lookup_iff.mpr hmem
      rw [h] at h1
      have : v = v1 := by simpa using h1
      subst this
      exact hP

theorem sweep_interval (cache : Cache) (tick : Time) :
    (cache.sweep tick).interval = cache.interval := rfl

theorem Get_fst (cache : Cache) (key : String) :
    (cache.Get key).1 =
      match cache.cache.lookup key with
      | none => (ByteSlice.nil, false)
      | some v => (v.val, true) := by
  unfold Cache.Get
  cases cache.cache.lookup key <;> rfl

theorem Get_snd (cache : Cache) (key : String) : (cache.Get key).2 = cache := by
  unfold Cache.Get
  cases cache.cache.lookup key <;> rfl

theorem lookup_Add_self (cache : Cache) (now : Time) (key : String) (val : ByteSlice) :
    (cache.Add now key val).cache.lookup key = some { createdAt := now, val := val } := by
  unfold Cache.Add
  exact AList.lookup_insert _

theorem lookup_Add_ne (cache : Cache) (now : Time) (key key1 : String) (val : ByteSlice)
    (h : key1 ≠ key) :
    (cache.Add now key val).cache.lookup key1 = cache.cache.lookup key1 := by
  unfold Cache.Add
  exact AList.lookup_insert_ne h

theorem step_interval (cache : Cache) (e : Event) :
    (cache.step e).interval = cache.interval := by
  unfold Cache.step
  split
  · rfl
  · rw [Get_snd]
  · rfl

theorem run_interval (cache : Cache) (es : List Event) :
    (cache.run es).interval = cache.interval := by
  unfold Cache.run
  induction es generalizing cache with
  | nil => rfl
  | cons e es ih => rw [List.foldl_cons, ih, step_interval]

theorem run_append (cache : Cache) (es fs : List Event) :
    cache.run (es ++ fs) = (cache.run es).run fs := by
  unfold Cache.run
  exact List.foldl_append _ _ _ _

theorem run_cons (cache : Cache) (e : Event) (es : List Event) :
    cache.run (e :: es) = (cache.step e).run es := rfl

/-- An absent key stays absent under an event that is not an `Add` on it. -/
theorem step_lookup_none (cache : Cache) (e : Event) (k : String)
    (hk : cache.cache.lookup k = none) (he : e.addsKey k = false) :
    (cache.step e).cache.lookup k = none := by
  unfold Cache.step
  unfold Event.addsKey at he
  split
  · rename_i key val heq
    rw [heq] at he
    have hne : k ≠ key := fun h => by simp [h] at he
    rw [lookup_Add_ne _ _ _ _ _ hne]
    exact hk
  · rw [Get_snd]
    exact hk
  · rw [lookup_sweep, hk]

/-- An absent key stays absent under a history without an `Add` on it. -/
theorem run_lookup_none (cache : Cache) (es : List Event) (k : String)
    (hk : cache.cache.lookup k = none) (hes : ∀ e ∈ es, e.addsKey k = false) :
    (cache.run es).cache.lookup k = none := by
  induction es generalizing cache with
  | nil => exact hk
  | cons e es ih =>
    rw [run_cons]
    apply ih
    · exact step_lookup_none cache e k hk (hes e (List.mem_cons_self _ _))
    · exact fun e1 h1 => hes e1 (List.mem_cons_of_mem _ h1)

/-! ## Theorems about the store -/

/-- C1 (write-then-read): for every cache state, key `key` and payload `val`, the
`Cache.Get(key)` that directly follows `Cache.Add(key, val)` returns `(val, true)`,
whether or not `key` was present before the `Add`. -/
theorem Get_after_Add (cache : Cache) (now : Time) (key : String) (val : ByteSlice) :
    ((cache.Add now key val).Get key).1 = (val, true) := by
  rw [Get_fst, lookup_Add_self]

/-- C2 (reaper eviction criterion): with a positive interval `reapLoop` performs the
sweep for a received tick `w`; after the sweep the interval is unchanged, a key is
present if and only if it was present before with `w - createdAt <= interval`, an entry
older than the interval is removed, an entry whose age is exactly the interval is kept,
and every surviving entry is the entry the key had before (same payload, same
`createdAt`). -/
theorem reapLoop_sweep_criterion (cache : Cache) (w : Time) :
    (0 < cache.interval → cache.reapLoop [w] = Except.ok (cache.sweep w)) ∧
    (cache.sweep w).interval = cache.interval ∧
    ∀ k : String,
      (k ∈ (cache.sweep w).cache ↔
        ∃ v, cache.cache.lookup k = some v ∧
          (w.mono : Int) - (v.createdAt.mono : Int) ≤ cache.interval) ∧
      (∀ v, cache.cache.lookup k = some v →
        (w.mono : Int) - (v.createdAt.mono : Int) > cache.interval →
        (cache.sweep w).cache.lookup k = none) ∧
      (∀ v, cache.cache.lookup k = some v →
        (w.mono : Int) - (v.createdAt.mono : Int) = cache.interval →
        (cache.sweep w).cache.lookup k = some v) ∧
      (∀ v, (cache.sweep w).cache.lookup k = some v → cache.cache.lookup k = some v) := by
  refine ⟨?_, rfl, ?_⟩
  · intro hpos
    unfold Cache.reapLoop
    rw [if_neg (not_le.mpr hpos)]
    rfl
  · intro k
    have hs := lookup_sweep cache w k
    refine ⟨?_, ?_, ?_, ?_⟩
    · rw [← AList.lookup_isSome, hs]
      cases h : cache.cache.lookup k with
      | none => simp
      | some v =>
        simp only [Time.Sub_eq]
        by_cases hP : (w.mono : Int) - (v.createdAt.mono : Int) > cache.interval
        · rw [if_pos hP]
          simp only [Option.isSome_none, Bool.false_eq_true, Option.some.injEq, exists_eq_left',
            false_iff, not_le]
          exact hP
        · rw [if_neg hP]
          simp only [Option.isSome_some, Option.some.injEq, exists_eq_left', true_iff]
          exact not_lt.mp hP
    · intro v hv hgt
      rw [hs, hv]
      simp only [Time.Sub_eq]
      rw [if_pos hgt]
    · intro v hv heq
      rw [hs, hv]
      simp only [Time.Sub_eq]
      rw [if_neg (not_lt.mpr (le_of_eq heq))]
    · intro v hv
      rw [hs] at hv
      cases h : cache.cache.lookup k with
      | none => rw [h] at hv; cases hv
      | some v1 =>
        rw [h] at hv
        simp only at hv
        split_ifs at hv
        exact hv

/-- An entry that no tick outlives by more than the interval survives the sweeps. -/
theorem lookup_foldl_sweep_fresh (ticks : List Time) (cache : Cache) (k : String)
    (v : cacheEntry) (ttl : Duration) (httl : cache.interval = ttl)
    (hk : cache.cache.lookup k = some v)
    (hticks : ∀ w ∈ ticks, (w.mono : Int) - (v.createdAt.mono : Int) ≤ ttl) :
    (ticks.foldl Cache.sweep cache).cache.lookup k = some v := by
  induction ticks generalizing cache with
  | nil => exact hk
  | cons w ticks ih =>
    rw [List.foldl_cons]
    apply ih
    · rw [sweep_interval, httl]
    · rw [lookup_sweep, hk]
      simp only [Time.Sub_eq, httl]
      rw [if_neg (not_lt.mpr (hticks w (List.mem_cons_self _ _)))]
    · exact fun w1 h1 => hticks w1 (List.mem_cons_of_mem _ h1)

/-- When `makeRequest` ends in `log.Fatal`, and when it returns. -/
theorem makeRequest_eq (net : Fetcher) (requests : List String) (url : String) :
    makeRequest net requests url =
      (if (net requests url).getErr = true ∨ (net requests url).StatusCode > 299 ∨
          (net requests url).closeErr = true ∨ (net requests url).readErr = true
        then Proc.fatal else Proc.ret (net requests url).body, requests ++ [url]) := by
  unfold makeRequest
  simp only
  by_cases h1 : (net requests url).getErr = true
  · simp [h1]
  · by_cases h2 : (net requests url).StatusCode > 299
    · simp [h1, h2]
    · by_cases h3 : (net requests url).closeErr = true
      · simp [h1, h3]
      · by_cases h4 : (net requests url).readErr = true
        · simp [h1, h2, h3, h4]
        · simp [h1, h2, h3, h4]

theorem getData_hit (net : Fetcher) (now : Time) (url : String) (cache : Cache)
    (requests : List String) (v : cacheEntry) (h : cache.cache.lookup url = some v) :
    getData net now url cache requests = (Proc.ret v.val, cache, requests) := by
  unfold getData Cache.Get
  rw [h]

theorem getData_miss (net : Fetcher) (now : Time) (url : String) (cache : Cache)
    (requests : List String) (h : cache.cache.lookup url = none) :
    getData net now url cache requests =
      if (net requests url).getErr = true ∨ (net requests url).StatusCode > 299 ∨
          (net requests url).closeErr = true ∨ (net requests url).readErr = true
      then (Proc.fatal, cache, requests ++ [url])
      else (Proc.ret (net requests url).body, cache.Add now url (net requests url).body,
        requests ++ [url]) := by
  unfold getData Cache.Get
  rw [h]
  simp only
  rw [makeRequest_eq]
  split_ifs <;> rfl

/-! ## Theorems about the fetch path -/

/-- C3 (memoized fetch): for a key `k` absent from the cache and a fetcher whose
request for `k` succeeds with bytes `b`, the first `getData(k)` issues exactly one
request, stores `b` under `k` and returns `b`; after any sweeps that do not evict `k`,
the second `getData(k)` returns `b` from the store, issues no request and leaves the
store as it found it. -/
theorem getData_memoized (net : Fetcher) (cache : Cache) (requests : List String)
    (k : String) (b : ByteSlice) (t1 t2 : Time) (ticks : List Time)
    (habsent : cache.cache.lookup k = none)
    (hfetch : (makeRequest net requests k).1 = Proc.ret b)
    (hticks : ∀ w ∈ ticks, (w.mono : Int) - (t1.mono : Int) ≤ cache.interval) :
    (getData net t1 k cache requests).1 = Proc.ret b ∧
    (getData net t1 k cache requests).2.2 = requests ++ [k] ∧
    (getData net t1 k cache requests).2.1 = cache.Add t1 k b ∧
    (getData net t1 k cache requests).2.1.cache.lookup k = some { createdAt := t1, val := b } ∧
    getData net t2 k (ticks.foldl Cache.sweep (getData net t1 k cache requests).2.1)
        (getData net t1 k cache requests).2.2 =
      (Proc.ret b, ticks.foldl Cache.sweep (getData net t1 k cache requests).2.1,
        requests ++ [k]) := by
  rw [makeRequest_eq] at hfetch
  simp only at hfetch
  have h1 : getData net t1 k cache requests = (Proc.ret b, cache.Add t1 k b, requests ++ [k]) := by
    rw [getData_miss _ _ _ _ _ habsent]
    split_ifs with hc
    · rw [if_pos hc] at hfetch
      cases hfetch
    · rw [if_neg hc] at hfetch
      cases hfetch
      rfl
  rw [h1]
  refine ⟨rfl, rfl, rfl, lookup_Add_self _ _ _ _, ?_⟩
  simp only
  exact getData_hit net t2 k _ _ { createdAt := t1, val := b }
    (lookup_foldl_sweep_fresh ticks _ k _ cache.interval rfl (lookup_Add_self _ _ _ _) hticks)

/-- C3 at a concrete input: an empty cache of interval 100, first call at instant 5,
sweeps at instants 100 and 105, second call at instant 110. -/
theorem getData_memoized_witness :
    (NewCache 100).cache.lookup "k" = none ∧
    (makeRequest okFetcher [] "k").1 = Proc.ret (ByteSlice.bytes [1, 2, 3]) ∧
    (∀ w ∈ [(⟨100, by decide⟩ : Time), ⟨105, by decide⟩],
      (w.mono : Int) - ((⟨5, by decide⟩ : Time).mono : Int) ≤ (NewCache 100).interval) ∧
    (getData okFetcher ⟨5, by decide⟩ "k" (NewCache 100) []).1
        = Proc.ret (ByteSlice.bytes [1, 2, 3]) ∧
    (getData okFetcher ⟨5, by decide⟩ "k" (NewCache 100) []).2.2 = [] ++ ["k"] ∧
    (getData okFetcher ⟨5, by decide⟩ "k" (NewCache 100) []).2.1
        = (NewCache 100).Add ⟨5, by decide⟩ "k" (ByteSlice.bytes [1, 2, 3]) ∧
    (getData okFetcher ⟨5, by decide⟩ "k" (NewCache 100) []).2.1.cache.lookup "k"
        = some { createdAt := ⟨5, by decide⟩, val := ByteSlice.bytes [1, 2, 3] } ∧
    getData okFetcher ⟨110, by decide⟩ "k"
        (List.foldl Cache.sweep (getData okFetcher ⟨5, by decide⟩ "k" (NewCache 100) []).2.1
          [⟨100, by decide⟩, ⟨105, by decide⟩])
        (getData okFetcher ⟨5, by decide⟩ "k" (NewCache 100) []).2.2 =
      (Proc.ret (ByteSlice.bytes [1, 2, 3]),
        List.foldl Cache.sweep (getData okFetcher ⟨5, by decide⟩ "k" (NewCache 100) []).2.1
          [⟨100, by decide⟩, ⟨105, by decide⟩],
        [] ++ ["k"]) :=
  ⟨by decide, by decide, by decide,
    getData_memoized okFetcher (NewCache 100) [] "k" (ByteSlice.bytes [1, 2, 3])
      ⟨5, by decide⟩ ⟨110, by decide⟩ [⟨100, by decide⟩, ⟨105, by decide⟩]
      (by decide) (by decide) (by decide)⟩

/-- C4 as stated fails: with a fetcher that answers status 404 and a key absent from
the cache, the request fails, yet `getData` returns nothing to its caller (it ends in
`log.Fatal`), and of two `getData` calls for the key issued in turn the second never
runs, so the fetcher is invoked once and not again. -/
theorem getData_failure_not_reported :
    (NewCache hundredSeconds).cache.lookup "k" = none ∧
    (makeRequest notFoundFetcher [] "k").1 = Proc.fatal ∧
    (getData notFoundFetcher ⟨5, by decide⟩ "k" (NewCache hundredSeconds) []).1 = Proc.fatal ∧
    (∀ body, (getData notFoundFetcher ⟨5, by decide⟩ "k" (NewCache hundredSeconds) []).1
      ≠ Proc.ret body) ∧
    (getDataSeq notFoundFetcher [(⟨5, by decide⟩, "k"), (⟨6, by decide⟩, "k")]
      (NewCache hundredSeconds) []).2.2 = ["k"] := by
  refine ⟨by decide, by decide, by decide, ?_, by decide⟩
  intro body h
  have h1 : (getData notFoundFetcher ⟨5, by decide⟩ "k" (NewCache hundredSeconds) []).1
      = Proc.fatal := by decide
  rw [h1] at h
  cases h

/-- C4 (amended): for a key `k` absent from the cache, if the request made for `k`
fails (`http.Get` error, status code above 299, error closing or reading the body),
`getData(k)` ends the process in `log.Fatal` without returning to its caller; one
request has been issued, the store is the one the call found (so it has no entry for
`k`), and no `getData` call placed after it by the caller runs. -/
theorem getData_failure_exits (net : Fetcher) (cache : Cache) (requests : List String)
    (k : String) (now : Time) (rest : List (Time × String))
    (habsent : cache.cache.lookup k = none)
    (hfail : (net requests k).getErr = true ∨ (net requests k).StatusCode > 299 ∨
      (net requests k).closeErr = true ∨ (net requests k).readErr = true) :
    (makeRequest net requests k).1 = Proc.fatal ∧
    getData net now k cache requests = (Proc.fatal, cache, requests ++ [k]) ∧
    (getData net now k cache requests).2.1.cache.lookup k = none ∧
    getDataSeq net ((now, k) :: rest) cache requests = (Proc.fatal, cache, requests ++ [k]) := by
  have h1 : getData net now k cache requests = (Proc.fatal, cache, requests ++ [k]) := by
    rw [getData_miss _ _ _ _ _ habsent, if_pos hfail]
  refine ⟨?_, h1, ?_, ?_⟩
  · rw [makeRequest_eq]
    simp only
    rw [if_pos hfail]
  · rw [h1]
    exact habsent
  · unfold getDataSeq
    rw [h1]

/-- C4 (amended) at a concrete input: status 404 for the key on an empty cache, with a
second call for the same key placed after the first. -/
theorem getData_failure_exits_witness :
    (NewCache hundredSeconds).cache.lookup "k" = none ∧
    ((notFoundFetcher [] "k").getErr = true ∨ (notFoundFetcher [] "k").StatusCode > 299 ∨
      (notFoundFetcher [] "k").closeErr = true ∨ (notFoundFetcher [] "k").readErr = true) ∧
    getDataSeq notFoundFetcher [(⟨5, by decide⟩, "k"), (⟨6, by decide⟩, "k")]
      (NewCache hundredSeconds) [] = (Proc.fatal, NewCache hundredSeconds, [] ++ ["k"]) :=
  ⟨by decide, by decide,
    (getData_failure_exits notFoundFetcher (NewCache hundredSeconds) [] "k" ⟨5, by decide⟩
      [(⟨6, by decide⟩, "k")] (by decide) (by decide)).2.2.2⟩

/-! ## Lifetime of an entry -/

/-- Under a history without an `Add` on `k`, the key `k` is absent or has the entry it
started with. -/
theorem run_lookup_none_or_same (cache : Cache) (es : List Event) (k : String)
    (hes : ∀ e ∈ es, e.addsKey k = false) :
    (cache.run es).cache.lookup k = none ∨
      (cache.run es).cache.lookup k = cache.cache.lookup k := by
  induction es generalizing cache with
  | nil => exact Or.inr rfl
  | cons e es ih =>
    rw [run_cons]
    have hrest : ∀ e1 ∈ es, e1.addsKey k = false :=
      fun e1 h1 => hes e1 (List.mem_cons_of_mem _ h1)
    have he := hes e (List.mem_cons_self _ _)
    have hstep : (cache.step e).cache.lookup k = none ∨
        (cache.step e).cache.lookup k = cache.cache.lookup k := by
      unfold Cache.step
      unfold Event.addsKey at he
      split
      · rename_i key val heq
        rw [heq] at he
        have hne : k ≠ key := fun h => by simp [h] at he
        exact Or.inr (lookup_Add_ne _ _ _ _ _ hne)
      · rw [Get_snd]
        exact Or.inr rfl
      · rw [lookup_sweep]
        cases cache.cache.lookup k with
        | none => exact Or.inl rfl
        | some v =>
          simp only
          split_ifs
          · exact Or.inl rfl
          · exact Or.inr rfl
    rcases hstep with h0 | h1
    · exact Or.inl (run_lookup_none _ es k h0 hrest)
    · rcases ih (cache.step e) hrest with h2 | h2
      · exact Or.inl h2
      · exact Or.inr (h2.trans h1)

/-- Some multiple of a positive interval `ttl` after `T0` falls in `(c + ttl, c + 2 * ttl]`
when `T0 ≤ c`. -/
theorem exists_tick_in_window (T0 c ttl : Int) (hpos : 0 < ttl) (hT0 : T0 ≤ c) :
    ∃ n : Nat, 1 ≤ n ∧ c + ttl < T0 + (n : Int) * ttl ∧ T0 + (n : Int) * ttl ≤ c + 2 * ttl := by
  have hdiv := Int.ediv_add_emod (c + ttl - T0) ttl
  have hr0 := Int.emod_nonneg (c + ttl - T0) (ne_of_gt hpos)
  have hr1 := Int.emod_lt_of_pos (c + ttl - T0) hpos
  have hq : 1 ≤ (c + ttl - T0) / ttl := by
    by_contra hcon
    have hle : (c + ttl - T0) / ttl ≤ 0 := by omega
    have := mul_le_mul_of_nonneg_left hle (le_of_lt hpos)
    rw [mul_zero] at this
    linarith
  refine ⟨((c + ttl - T0) / ttl + 1).toNat, ?_, ?_, ?_⟩
  · omega
  · rw [Int.toNat_of_nonneg (by omega)]
    linarith
  · rw [Int.toNat_of_nonneg (by omega)]
    linarith

/-- Among the ticks `base + ttl`, `base + 2 * ttl`, ... with `base ≤ c + ttl`, one no
later than a given tick that is later than `c + ttl` falls in `(c + ttl, c + 2 * ttl]`. -/
theorem tick_in_window_of_late (base c ttl : Int) (i : Nat) (hpos : 0 < ttl)
    (hbase : base ≤ c + ttl) (hlate : c + ttl < base + ((i : Int) + 1) * ttl) :
    ∃ j : Nat, j ≤ i ∧ c + ttl < base + ((j : Int) + 1) * ttl ∧
      base + ((j : Int) + 1) * ttl ≤ c + 2 * ttl := by
  by_cases hbc : base ≤ c
  · obtain ⟨n, hn1, hlo, hhi⟩ := exists_tick_in_window base c ttl hpos hbc
    have hn : n ≤ i + 1 := by
      by_contra hcon
      have h2 : (i : Int) + 2 ≤ (n : Int) := by omega
      have h3 := mul_le_mul_of_nonneg_right h2 (le_of_lt hpos)
      linarith
    have hcast : ((n - 1 : Nat) : Int) + 1 = (n : Int) := by omega
    refine ⟨n - 1, by omega, ?_, ?_⟩
    · rw [hcast]
      exact hlo
    · rw [hcast]
      exact hhi
  · refine ⟨0, Nat.zero_le _, ?_, ?_⟩
    · simp only [Nat.cast_zero, zero_add, one_mul]
      linarith
    · simp only [Nat.cast_zero, zero_add, one_mul]
      linarith

theorem foldl_sweep_eq_run (ws : List Time) (cache : Cache) :
    ws.foldl Cache.sweep cache
      = cache.run (ws.map (fun w => ({ instant := w, op := Op.sweep } : Event))) := by
  induction ws generalizing cache with
  | nil => rfl
  | cons w ws ih =>
    rw [List.foldl_cons, List.map_cons, run_cons, ih]
    rfl

/-- With a positive interval the loop of `reapLoop` sweeps once for each tick. -/
theorem reapLoop_eq_run (cache : Cache) (ws : List Time) (hpos : 0 < cache.interval) :
    cache.reapLoop ws
      = Except.ok (cache.run (ws.map (fun w => ({ instant := w, op := Op.sweep } : Event)))) := by
  unfold Cache.reapLoop
  rw [if_neg (not_le.mpr hpos), foldl_sweep_eq_run]

/-- An execution with the reaper on a cache of positive interval ends, and its cache is
the one obtained by running the operations in order. -/
theorem runWithReaper_eq_run (phases : List (List Event × List Time)) (cache : Cache)
    (hpos : 0 < cache.interval) :
    cache.runWithReaper phases = Except.ok (cache.run (phaseEvents phases)) := by
  induction phases generalizing cache with
  | nil => rfl
  | cons ph rest ih =>
    obtain ⟨es, ws⟩ := ph
    have hpos1 : 0 < (cache.run es).interval := by rw [run_interval]; exact hpos
    unfold Cache.runWithReaper
    rw [reapLoop_eq_run _ _ hpos1]
    simp only
    rw [ih _ (by rw [run_interval, run_interval]; exact hpos)]
    unfold phaseEvents
    rw [List.map_cons, List.flatten_cons, run_append, run_append]

/-- With no caller in between, the phases of the reaper are one run of `reapLoop`. -/
theorem runWithReaper_no_callers (cache : Cache) (ws : List Time) :
    cache.runWithReaper [([], ws)] = cache.reapLoop ws := by
  unfold Cache.runWithReaper
  show (match cache.reapLoop ws with
    | Except.ok cache1 => cache1.runWithReaper []
    | Except.error e => Except.error e) = cache.reapLoop ws
  cases cache.reapLoop ws <;> rfl

/-- An entry stays under a history without an `Add` on its key whose sweeps all have a
tick at most the interval later than `createdAt`. -/
theorem run_lookup_fresh (es : List Event) (cache : Cache) (k : String) (v : cacheEntry)
    (ttl : Duration) (httl : cache.interval = ttl) (hk : cache.cache.lookup k = some v)
    (hes : ∀ e ∈ es, e.addsKey k = false)
    (hsw : ∀ e ∈ es, e.isSweep = true →
      (e.instant.mono : Int) - (v.createdAt.mono : Int) ≤ ttl) :
    (cache.run es).cache.lookup k = some v := by
  induction es generalizing cache with
  | nil => exact hk
  | cons e es ih =>
    rw [run_cons]
    have he := hes e (List.mem_cons_self _ _)
    have hs := hsw e (List.mem_cons_self _ _)
    apply ih
    · rw [step_interval, httl]
    · unfold Cache.step
      unfold Event.addsKey at he
      unfold Event.isSweep at hs
      split
      · rename_i key val heq
        rw [heq] at he
        have hne : k ≠ key := fun h => by simp [h] at he
        rw [lookup_Add_ne _ _ _ _ _ hne]
        exact hk
      · rw [Get_snd]
        exact hk
      · rename_i heq
        rw [heq] at hs
        rw [lookup_sweep, hk]
        simp only [Time.Sub_eq, httl]
        rw [if_neg (not_lt.mpr (hs rfl))]
    · exact fun e1 h1 => hes e1 (List.mem_cons_of_mem _ h1)
    · exact fun e1 h1 => hsw e1 (List.mem_cons_of_mem _ h1)

/-- An entry is gone after a history without an `Add` on its key that has a sweep whose
tick is later than `createdAt` by more than the interval. -/
theorem run_lookup_stale (es : List Event) (cache : Cache) (k : String) (v : cacheEntry)
    (hk : cache.cache.lookup k = some v)
    (hes : ∀ e ∈ es, e.addsKey k = false)
    (w : Time) (hw : ({ instant := w, op := Op.sweep } : Event) ∈ es)
    (hlate : (w.mono : Int) - (v.createdAt.mono : Int) > cache.interval) :
    (cache.run es).cache.lookup k = none := by
  obtain ⟨es1, es2, hsplit⟩ := List.append_of_mem hw
  have hno1 : ∀ e ∈ es1, e.addsKey k = false := fun e he =>
    hes e (by rw [hsplit]; exact List.mem_append_left _ he)
  have hno2 : ∀ e ∈ es2, e.addsKey k = false := fun e he =>
    hes e (by rw [hsplit]; exact List.mem_append_right _ (List.mem_cons_of_mem _ he))
  rw [hsplit, run_append, run_cons]
  apply run_lookup_none _ es2 k _ hno2
  show ((cache.run es1).sweep w).cache.lookup k = none
  rw [lookup_sweep]
  rcases run_lookup_none_or_same cache es1 k hno1 with h0 | h1
  · rw [h0]
  · rw [h1, hk]
    simp only [Time.Sub_eq, run_interval]
    rw [if_pos hlate]

/-- The instant of the tick at a position of a list of ticks that follows the schedule
of a ticker. -/
theorem tick_of_schedule (ticks : List Time) (start : Int) (ttl : Duration)
    (hticker : ticks.map (fun w => (w.mono : Int)) = tickerTicks start ttl ticks.length)
    (i : Nat) (w : Time) (hi : ticks[i]? = some w) :
    (w.mono : Int) = start + ((i : Int) + 1) * ttl := by
  have hlt : i < ticks.length := (List.getElem?_eq_some.mp hi).1
  have h1 := congrArg (fun l => l[i]?) hticker
  simp only [tickerTicks, List.getElem?_map, hi, Option.map_some',
    List.getElem?_range hlt] at h1
  exact Option.some.inj h1

theorem phaseTicks_append (xs ys : List (List Event × List Time)) :
    phaseTicks (xs ++ ys) = phaseTicks xs ++ phaseTicks ys := by
  simp [phaseTicks]

theorem mem_phaseEvents_sweep (phases : List (List Event × List Time)) (w : Time)
    (hw : w ∈ phaseTicks phases) :
    ({ instant := w, op := Op.sweep } : Event) ∈ phaseEvents phases := by
  unfold phaseTicks at hw
  unfold phaseEvents
  obtain ⟨l, hl, hwl⟩ := List.mem_flatten.mp hw
  obtain ⟨ph, hph, rfl⟩ := List.mem_map.mp hl
  exact List.mem_flatten.mpr ⟨_, List.mem_map.mpr ⟨ph, hph, rfl⟩,
    List.mem_append_right _ (List.mem_map.mpr ⟨w, hwl, rfl⟩)⟩

theorem mem_phaseEvents (phases : List (List Event × List Time)) (e : Event)
    (he : e ∈ phaseEvents phases) :
    (∃ ph ∈ phases, e ∈ ph.1) ∨
      (∃ w ∈ phaseTicks phases, e = { instant := w, op := Op.sweep }) := by
  unfold phaseEvents at he
  obtain ⟨l, hl, hel⟩ := List.mem_flatten.mp he
  obtain ⟨ph, hph, rfl⟩ := List.mem_map.mp hl
  rcases List.mem_append.mp hel with h1 | h2
  · exact Or.inl ⟨ph, hph, h1⟩
  · obtain ⟨w, hw, rfl⟩ := List.mem_map.mp h2
    refine Or.inr ⟨w, ?_, rfl⟩
    unfold phaseTicks
    exact List.mem_flatten.mpr ⟨_, List.mem_map.mpr ⟨ph, hph, rfl⟩, hw⟩

/-- C5 (amended): take a cache with interval `ttl > 0` whose reaper receives from its
ticker, created at instant `Tg`, the ticks `Tg + ttl`, `Tg + 2 * ttl`, ... and handles
them in `reapLoop`, alongside callers.  Let `Cache.Add(k, p)` run at an instant `c`
with `Tg ≤ c + ttl` (so at any `c ≥ Tg`), after the ticks handled before it, and let no
later `Add` be on `k`.  The
execution ends, and at its end: if every tick handled after the `Add` is at most
`c + ttl`, `Cache.Get(k)` still returns `(p, true)`; if a tick later than `c + ttl` has
been handled, then a tick in `(c + ttl, c + 2 * ttl]` has been handled and
`Cache.Get(k)` returns `(nil, false)`.  Moreover after a sweep for any tick `w` on any
cache every remaining entry has `w - createdAt <= interval`. -/
theorem entry_removed_by_first_late_tick (cache0 : Cache) (Tg c : Time) (k : String)
    (p : ByteSlice) (before after : List (List Event × List Time))
    (hpos : 0 < cache0.interval)
    (hTg : (Tg.mono : Int) ≤ (c.mono : Int) + cache0.interval)
    (hticker : (phaseTicks (before ++ after)).map (fun w => (w.mono : Int))
      = tickerTicks (Tg.mono : Int) cache0.interval (phaseTicks (before ++ after)).length)
    (hcausal : ∀ w ∈ phaseTicks before, w.mono ≤ c.mono)
    (hcallers : ∀ ph ∈ after, ∀ e ∈ ph.1, e.isSweep = false ∧ e.addsKey k = false) :
    (∃ final : Cache,
      cache0.runWithReaper (before ++ ([{ instant := c, op := Op.add k p }], []) :: after)
        = Except.ok final ∧
      ((∀ w ∈ phaseTicks after, (w.mono : Int) ≤ (c.mono : Int) + cache0.interval) →
        (final.Get k).1 = (p, true)) ∧
      ((∃ w ∈ phaseTicks after, (c.mono : Int) + cache0.interval < (w.mono : Int)) →
        (∃ w ∈ phaseTicks after, (c.mono : Int) + cache0.interval < (w.mono : Int) ∧
          (w.mono : Int) ≤ (c.mono : Int) + 2 * cache0.interval) ∧
        (final.Get k).1 = (ByteSlice.nil, false))) ∧
    (∀ (cache : Cache) (w : Time) (k1 : String) (v : cacheEntry),
      (cache.sweep w).cache.lookup k1 = some v →
      (w.mono : Int) - (v.createdAt.mono : Int) ≤ cache.interval) := by
  constructor
  · -- the execution as one history
    have hev : phaseEvents (before ++ ([{ instant := c, op := Op.add k p }], []) :: after)
        = phaseEvents before ++ { instant := c, op := Op.add k p } :: phaseEvents after := by
      simp [phaseEvents]
    refine ⟨_, runWithReaper_eq_run _ cache0 hpos, ?_, ?_⟩
    all_goals rw [hev, run_append, run_cons]
    all_goals
      have hadd : ((cache0.run (phaseEvents before)).step
          { instant := c, op := Op.add k p }).cache.lookup k
          = some { createdAt := c, val := p } := lookup_Add_self _ _ _ _
    all_goals
      have hint : ((cache0.run (phaseEvents before)).step
          { instant := c, op := Op.add k p }).interval = cache0.interval := by
        rw [step_interval, run_interval]
    all_goals
      have hnoadd : ∀ e ∈ phaseEvents after, e.addsKey k = false := by
        intro e he
        rcases mem_phaseEvents after e he with ⟨ph, hph, h1⟩ | ⟨w, _, rfl⟩
        · exact (hcallers ph hph e h1).2
        · rfl
    · intro hall
      rw [Get_fst, run_lookup_fresh (phaseEvents after) _ k { createdAt := c, val := p }
        cache0.interval hint hadd hnoadd]
      intro e he hsweep
      rcases mem_phaseEvents after e he with ⟨ph, hph, h1⟩ | ⟨w, hw, rfl⟩
      · rw [(hcallers ph hph e h1).1] at hsweep
        cases hsweep
      · have := hall w hw
        simp only
        linarith
    · rintro ⟨w, hw, hlate⟩
      constructor
      · -- the ticks handled after the Add continue the schedule from `base ≤ c`
        rw [phaseTicks_append] at hticker
        have hbase : (Tg.mono : Int) + ((phaseTicks before).length : Int) * cache0.interval
            ≤ (c.mono : Int) + cache0.interval := by
          rcases Nat.eq_zero_or_pos (phaseTicks before).length with h0 | hm
          · rw [h0]
            simp only [Nat.cast_zero, zero_mul, add_zero]
            exact hTg
          · have hidx : (phaseTicks before).length - 1 < (phaseTicks before).length := by omega
            have hsome : (phaseTicks before ++ phaseTicks after)[(phaseTicks before).length - 1]?
                = some ((phaseTicks before)[(phaseTicks before).length - 1]) := by
              rw [List.getElem?_append_left hidx, List.getElem?_eq_getElem hidx]
            have hval := tick_of_schedule _ _ _ hticker _ _ hsome
            have hle := hcausal _ (List.getElem_mem hidx)
            have hcast : (((phaseTicks before).length - 1 : Nat) : Int) + 1
                = ((phaseTicks before).length : Int) := by omega
            rw [hcast] at hval
            rw [← hval]
            have hle1 : (((phaseTicks before)[(phaseTicks before).length - 1]).mono : Int)
                ≤ (c.mono : Int) := by exact_mod_cast hle
            linarith
        obtain ⟨i, hi⟩ := List.mem_iff_getElem?.mp hw
        have hwsome : (phaseTicks before ++ phaseTicks after)[(phaseTicks before).length + i]?
            = some w := by
          rw [List.getElem?_append_right (Nat.le_add_right _ _), Nat.add_sub_cancel_left]
          exact hi
        have hwval := tick_of_schedule _ _ _ hticker _ _ hwsome
        have hlate1 : (c.mono : Int) + cache0.interval
            < ((Tg.mono : Int) + ((phaseTicks before).length : Int) * cache0.interval)
              + ((i : Int) + 1) * cache0.interval := by
          rw [hwval] at hlate
          push_cast at hlate
          linarith
        obtain ⟨j, hji, hlo, hhi⟩ :=
          tick_in_window_of_late _ (c.mono : Int) cache0.interval i hpos hbase hlate1
        have hilt : i < (phaseTicks after).length := (List.getElem?_eq_some.mp hi).1
        have hjlt : j < (phaseTicks after).length := by omega
        have hjsome : (phaseTicks before ++ phaseTicks after)[(phaseTicks before).length + j]?
            = some ((phaseTicks after)[j]) := by
          rw [List.getElem?_append_right (Nat.le_add_right _ _), Nat.add_sub_cancel_left,
            List.getElem?_eq_getElem hjlt]
        have hjval := tick_of_schedule _ _ _ hticker _ _ hjsome
        refine ⟨(phaseTicks after)[j], List.getElem_mem hjlt, ?_, ?_⟩
        · rw [hjval]
          push_cast
          linarith
        · rw [hjval]
          push_cast
          linarith
      · rw [Get_fst, run_lookup_stale (phaseEvents after) _ k { createdAt := c, val := p }
          hadd hnoadd w (mem_phaseEvents_sweep after w hw)]
        rw [hint]
        simp only
        linarith
  · intro cache w1 k1 v hv
    rw [lookup_sweep] at hv
    cases h : cache.cache.lookup k1 with
    | none => rw [h] at hv; cases hv
    | some v1 =>
      rw [h] at hv
      simp only [Time.Sub_eq] at hv
      split_ifs at hv with hc
      cases hv
      exact not_lt.mp hc

/-- C5 (amended) at a concrete input: interval 10, ticker created at instant 1, so
ticks 11, 21 and 31; the tick 11 is handled before `Add("a", [7])` at instant 13, the
ticks 21 and 31 after it, with `Get`s of callers in between. -/
theorem entry_removed_by_first_late_tick_witness :
    0 < (NewCache 10).interval ∧
    ((⟨1, by decide⟩ : Time).mono : Int)
      ≤ ((⟨13, by decide⟩ : Time).mono : Int) + (NewCache 10).interval ∧
    (phaseTicks ([([{ instant := ⟨2, by decide⟩, op := Op.get "b" }], [⟨11, by decide⟩])] ++
        [([{ instant := ⟨15, by decide⟩, op := Op.get "a" }], [⟨21, by decide⟩]),
         ([{ instant := ⟨30, by decide⟩, op := Op.get "a" }], [⟨31, by decide⟩]),
         ([{ instant := ⟨40, by decide⟩, op := Op.get "a" }], [])])).map
        (fun w => (w.mono : Int))
      = tickerTicks ((⟨1, by decide⟩ : Time).mono : Int) (NewCache 10).interval
          (phaseTicks ([([{ instant := ⟨2, by decide⟩, op := Op.get "b" }], [⟨11, by decide⟩])] ++
            [([{ instant := ⟨15, by decide⟩, op := Op.get "a" }], [⟨21, by decide⟩]),
             ([{ instant := ⟨30, by decide⟩, op := Op.get "a" }], [⟨31, by decide⟩]),
             ([{ instant := ⟨40, by decide⟩, op := Op.get "a" }], [])])).length ∧
    (∀ w ∈ phaseTicks [([{ instant := ⟨2, by decide⟩, op := Op.get "b" }], [⟨11, by decide⟩])],
      w.mono ≤ (⟨13, by decide⟩ : Time).mono) ∧
    (∀ ph ∈ [(([{ instant := ⟨15, by decide⟩, op := Op.get "a" }], [⟨21, by decide⟩]) :
              List Event × List Time),
         ([{ instant := ⟨30, by decide⟩, op := Op.get "a" }], [⟨31, by decide⟩]),
         ([{ instant := ⟨40, by decide⟩, op := Op.get "a" }], [])],
      ∀ e ∈ ph.1, e.isSweep = false ∧ e.addsKey "a" = false) ∧
    (∃ w ∈ phaseTicks [(([{ instant := ⟨15, by decide⟩, op := Op.get "a" }], [⟨21, by decide⟩]) :
              List Event × List Time),
         ([{ instant := ⟨30, by decide⟩, op := Op.get "a" }], [⟨31, by decide⟩]),
         ([{ instant := ⟨40, by decide⟩, op := Op.get "a" }], [])],
      (((⟨13, by decide⟩ : Time).mono : Int) + (NewCache 10).interval) < (w.mono : Int)) ∧
    (∃ final : Cache,
      (NewCache 10).runWithReaper
        ([([{ instant := ⟨2, by decide⟩, op := Op.get "b" }], [⟨11, by decide⟩])] ++
          ([{ instant := ⟨13, by decide⟩, op := Op.add "a" (ByteSlice.bytes [7]) }], []) ::
          [([{ instant := ⟨15, by decide⟩, op := Op.get "a" }], [⟨21, by decide⟩]),
           ([{ instant := ⟨30, by decide⟩, op := Op.get "a" }], [⟨31, by decide⟩]),
           ([{ instant := ⟨40, by decide⟩, op := Op.get "a" }], [])]) = Except.ok final ∧
      (final.Get "a").1 = (ByteSlice.nil, false)) := by
  have hlate : ∃ w ∈ phaseTicks
      [(([{ instant := ⟨15, by decide⟩, op := Op.get "a" }], [⟨21, by decide⟩]) :
              List Event × List Time),
         ([{ instant := ⟨30, by decide⟩, op := Op.get "a" }], [⟨31, by decide⟩]),
         ([{ instant := ⟨40, by decide⟩, op := Op.get "a" }], [])],
      (((⟨13, by decide⟩ : Time).mono : Int) + (NewCache 10).interval) < (w.mono : Int) :=
    ⟨⟨31, by decide⟩, by decide, by decide⟩
  obtain ⟨final, hrun, _, hgone⟩ :=
    (entry_removed_by_first_late_tick (NewCache 10) ⟨1, by decide⟩ ⟨13, by decide⟩ "a"
      (ByteSlice.bytes [7])
      [([{ instant := ⟨2, by decide⟩, op := Op.get "b" }], [⟨11, by decide⟩])]
      [([{ instant := ⟨15, by decide⟩, op := Op.get "a" }], [⟨21, by decide⟩]),
       ([{ instant := ⟨30, by decide⟩, op := Op.get "a" }], [⟨31, by decide⟩]),
       ([{ instant := ⟨40, by decide⟩, op := Op.get "a" }], [])]
      (by decide) (by decide) (by decide) (by decide) (by decide)).1
  exact ⟨by decide, by decide, by decide, by decide, by decide, hlate,
    final, hrun, (hgone hlate).2⟩

/-- C5 as stated fails: interval 100 s, cache built at instant 0, and the reaper
receives a tick at every instant `0 + n * ttl` (100 s and 200 s).  `Add("a", [7])` runs
at instant 3 ns and is never overwritten.  The `Get("a")` issued at 200 s + 4 ns, later
than `c + 2 * ttl`, runs before the reaper, which has received the tick of 200 s, takes
the lock for its sweep: it returns `([7], true)`.  Only a `Get` that runs after that
sweep returns `(nil, false)`. -/
theorem Get_later_than_two_intervals_finds_entry :
    (phaseTicks
      [([{ instant := ⟨3, by decide⟩, op := Op.add "a" (ByteSlice.bytes [7]) }],
          [⟨100000000000, by decide⟩]),
       ([{ instant := ⟨200000000004, by decide⟩, op := Op.get "a" }],
          [⟨200000000000, by decide⟩]),
       ([{ instant := ⟨200000000005, by decide⟩, op := Op.get "a" }], [])]).map
        (fun w => (w.mono : Int))
      = tickerTicks 0 hundredSeconds 2 ∧
    0 < (NewCache hundredSeconds).interval ∧
    (((⟨3, by decide⟩ : Time).mono : Int) + 2 * (NewCache hundredSeconds).interval
      < ((⟨200000000004, by decide⟩ : Time).mono : Int)) ∧
    (NewCache hundredSeconds).resultsWithReaper
      [([{ instant := ⟨3, by decide⟩, op := Op.add "a" (ByteSlice.bytes [7]) }],
          [⟨100000000000, by decide⟩]),
       ([{ instant := ⟨200000000004, by decide⟩, op := Op.get "a" }],
          [⟨200000000000, by decide⟩]),
       ([{ instant := ⟨200000000005, by decide⟩, op := Op.get "a" }], [])]
      = Except.ok [(ByteSlice.bytes [7], true), (ByteSlice.nil, false)] :=
  ⟨by decide, by decide, by decide, rfl⟩

/-! ## Overwrite, reads, misses and frame -/

/-- C6 (overwrite resets age): when `k` is present with any entry `e0`,
`Cache.Add(k, p2)` at instant `t2` makes the entry of `k` equal to
`(createdAt = t2, val = p2)`, and a sweep at instant `w` that follows removes `k` exactly
when `w - t2 > interval`.  In particular, with a non-negative interval `ttl`, after
`Add(k, p1)` at `t`, `Add(k, p2)` at `t + ttl / 2`, and any sweeps between the two and
after the second up to `t + 1.1 * ttl`, `Get(k)` returns `(p2, true)`. -/
theorem Add_overwrite_resets_age (cache : Cache) (k : String) (p1 p2 : ByteSlice)
    (t t2 : Time) (ws1 ws2 : List Time) :
    (∀ e0 : cacheEntry, cache.cache.lookup k = some e0 →
      (cache.Add t2 k p2).cache.lookup k = some { createdAt := t2, val := p2 } ∧
      ∀ w : Time, ((cache.Add t2 k p2).sweep w).cache.lookup k = none ↔
        (w.mono : Int) - (t2.mono : Int) > cache.interval) ∧
    (0 ≤ cache.interval →
      2 * ((t2.mono : Int) - (t.mono : Int)) = cache.interval →
      (∀ w ∈ ws2, 10 * ((w.mono : Int) - (t.mono : Int)) ≤ 11 * cache.interval) →
      ((ws2.foldl Cache.sweep
        ((ws1.foldl Cache.sweep (cache.Add t k p1)).Add t2 k p2)).Get k).1 = (p2, true)) := by
  constructor
  · intro e0 _
    refine ⟨lookup_Add_self _ _ _ _, ?_⟩
    intro w
    rw [lookup_sweep, lookup_Add_self]
    simp only [Time.Sub_eq]
    have hint : (cache.Add t2 k p2).interval = cache.interval := rfl
    rw [hint]
    split_ifs with hc
    · exact ⟨fun _ => hc, fun _ => rfl⟩
    · exact ⟨fun h => False.elim h, fun h => absurd h hc⟩
  · intro hnn hhalf hws
    have hint : ((ws1.foldl Cache.sweep (cache.Add t k p1)).Add t2 k p2).interval
        = cache.interval := by
      have : ∀ (ws : List Time) (c : Cache), (ws.foldl Cache.sweep c).interval = c.interval := by
        intro ws
        induction ws with
        | nil => intro c; rfl
        | cons w ws ih => intro c; rw [List.foldl_cons, ih, sweep_interval]
      show (ws1.foldl Cache.sweep (cache.Add t k p1)).interval = cache.interval
      rw [this]
      rfl
    rw [Get_fst, lookup_foldl_sweep_fresh ws2 _ k { createdAt := t2, val := p2 }
      cache.interval hint (lookup_Add_self _ _ _ _)]
    intro w hw
    have := hws w hw
    simp only
    linarith

/-- C6 at a concrete input: interval 100, `"a"` present since instant 1 with payload
`[9]`; `Add("a", [1])` at 200, a sweep at 220, `Add("a", [2])` at 250, sweeps at 300
and 310. -/
theorem Add_overwrite_resets_age_witness :
    ((NewCache 100).Add ⟨1, by decide⟩ "a" (ByteSlice.bytes [9])).cache.lookup "a"
      = some { createdAt := ⟨1, by decide⟩, val := ByteSlice.bytes [9] } ∧
    0 ≤ ((NewCache 100).Add ⟨1, by decide⟩ "a" (ByteSlice.bytes [9])).interval ∧
    2 * (((⟨250, by decide⟩ : Time).mono : Int) - ((⟨200, by decide⟩ : Time).mono : Int))
      = ((NewCache 100).Add ⟨1, by decide⟩ "a" (ByteSlice.bytes [9])).interval ∧
    (∀ w ∈ [(⟨300, by decide⟩ : Time), ⟨310, by decide⟩],
      10 * ((w.mono : Int) - ((⟨200, by decide⟩ : Time).mono : Int))
        ≤ 11 * ((NewCache 100).Add ⟨1, by decide⟩ "a" (ByteSlice.bytes [9])).interval) ∧
    ((((NewCache 100).Add ⟨1, by decide⟩ "a" (ByteSlice.bytes [9])).Add ⟨250, by decide⟩ "a"
        (ByteSlice.bytes [2])).cache.lookup "a"
      = some { createdAt := ⟨250, by decide⟩, val := ByteSlice.bytes [2] }) ∧
    ((List.foldl Cache.sweep
      ((List.foldl Cache.sweep
        (((NewCache 100).Add ⟨1, by decide⟩ "a" (ByteSlice.bytes [9])).Add ⟨200, by decide⟩ "a"
          (ByteSlice.bytes [1]))
        [⟨220, by decide⟩]).Add ⟨250, by decide⟩ "a" (ByteSlice.bytes [2]))
      [⟨300, by decide⟩, ⟨310, by decide⟩]).Get "a").1 = (ByteSlice.bytes [2], true) :=
  ⟨by decide, by decide, by decide, by decide,
    ((Add_overwrite_resets_age ((NewCache 100).Add ⟨1, by decide⟩ "a" (ByteSlice.bytes [9]))
      "a" (ByteSlice.bytes [1]) (ByteSlice.bytes [2]) ⟨200, by decide⟩ ⟨250, by decide⟩
      [⟨220, by decide⟩] [⟨300, by decide⟩, ⟨310, by decide⟩]).1
        { createdAt := ⟨1, by decide⟩, val := ByteSlice.bytes [9] } (by decide)).1,
    (Add_overwrite_resets_age ((NewCache 100).Add ⟨1, by decide⟩ "a" (ByteSlice.bytes [9]))
      "a" (ByteSlice.bytes [1]) (ByteSlice.bytes [2]) ⟨200, by decide⟩ ⟨250, by decide⟩
      [⟨220, by decide⟩] [⟨300, by decide⟩, ⟨310, by decide⟩]).2
        (by decide) (by decide) (by decide)⟩

/-- C7 (a read is not a keep-alive): for every cache state and key, present or absent,
`Cache.Get(key)` leaves the cache as it was (same keys, payloads and `createdAt`, same
interval); hence a sweep after the `Get` gives what the sweep gives without it, and a
history gives the same cache with its `Get`s as with all of them removed. -/
theorem Get_not_keepalive (cache : Cache) (key : String) :
    (cache.Get key).2 = cache ∧
    (∀ k : String, (cache.Get key).2.cache.lookup k = cache.cache.lookup k) ∧
    (∀ w : Time, (cache.Get key).2.sweep w = cache.sweep w) ∧
    (∀ es : List Event, cache.run es = cache.run (es.filter (fun e => !e.isGet))) := by
  refine ⟨Get_snd _ _, fun k => by rw [Get_snd], fun w => by rw [Get_snd], ?_⟩
  intro es
  induction es generalizing cache with
  | nil => rfl
  | cons e es ih =>
    cases hop : e.op with
    | add k v =>
      have hg : List.filter (fun e => !e.isGet) (e :: es)
          = e :: List.filter (fun e => !e.isGet) es := by
        simp [List.filter_cons, Event.isGet, hop]
      rw [hg, run_cons, run_cons]
      exact ih _
    | get k =>
      have hg : List.filter (fun e => !e.isGet) (e :: es)
          = List.filter (fun e => !e.isGet) es := by
        simp [List.filter_cons, Event.isGet, hop]
      rw [hg, run_cons]
      have hstep : cache.step e = cache := by
        unfold Cache.step
        rw [hop]
        exact Get_snd _ _
      rw [hstep]
      exact ih _
    | sweep =>
      have hg : List.filter (fun e => !e.isGet) (e :: es)
          = e :: List.filter (fun e => !e.isGet) es := by
        simp [List.filter_cons, Event.isGet, hop]
      rw [hg, run_cons, run_cons]
      exact ih _

/-- C8 (miss): on the cache built by `NewCache`, after any history of `Cache.Add` calls
on keys other than `k`, `Cache.Get` calls and sweeps, `Cache.Get(k)` returns the nil
payload and `false`. -/
theorem Get_never_inserted (interval : Duration) (es : List Event) (k : String)
    (hes : ∀ e ∈ es, e.addsKey k = false) :
    (((NewCache interval).run es).Get k).1 = (ByteSlice.nil, false) := by
  rw [Get_fst, run_lookup_none _ es k (AList.lookup_empty k) hes]

/-- C8 at a concrete input: `Add("b", [1])`, `Get("a")`, a sweep, `Get("b")`, then
`Get("a")`. -/
theorem Get_never_inserted_witness :
    (∀ e ∈ [({ instant := ⟨5, by decide⟩, op := Op.add "b" (ByteSlice.bytes [1]) } : Event),
        { instant := ⟨6, by decide⟩, op := Op.get "a" },
        { instant := ⟨100, by decide⟩, op := Op.sweep },
        { instant := ⟨101, by decide⟩, op := Op.get "b" }], e.addsKey "a" = false) ∧
    (((NewCache 100).run
      [{ instant := ⟨5, by decide⟩, op := Op.add "b" (ByteSlice.bytes [1]) },
        { instant := ⟨6, by decide⟩, op := Op.get "a" },
        { instant := ⟨100, by decide⟩, op := Op.sweep },
        { instant := ⟨101, by decide⟩, op := Op.get "b" }]).Get "a").1
      = (ByteSlice.nil, false) :=
  ⟨by decide, Get_never_inserted 100 _ "a" (by decide)⟩

/-- C10 (Add touches only its own key): for keys `k1 ≠ k`, `Cache.Add(k, p)` leaves the
entry of `k1` (presence, payload, `createdAt`) and the interval unchanged, so
`Cache.Get(k1)` returns the same result before and after the `Add`. -/
theorem Add_other_key_unchanged (cache : Cache) (now : Time) (k k1 : String)
    (p : ByteSlice) (hne : k1 ≠ k) :
    (cache.Add now k p).cache.lookup k1 = cache.cache.lookup k1 ∧
    (cache.Add now k p).interval = cache.interval ∧
    ((cache.Add now k p).Get k1).1 = (cache.Get k1).1 := by
  refine ⟨lookup_Add_ne _ _ _ _ _ hne, rfl, ?_⟩
  rw [Get_fst, Get_fst, lookup_Add_ne _ _ _ _ _ hne]

/-- C10 at a concrete input: `"b"` holds `[1]`, then `Add("a", [2])`. -/
theorem Add_other_key_unchanged_witness :
    "b" ≠ "a" ∧
    ((((NewCache 100).Add ⟨5, by decide⟩ "b" (ByteSlice.bytes [1])).Add ⟨7, by decide⟩ "a"
      (ByteSlice.bytes [2])).Get "b").1
      = (((NewCache 100).Add ⟨5, by decide⟩ "b" (ByteSlice.bytes [1])).Get "b").1 :=
  ⟨by decide, (Add_other_key_unchanged ((NewCache 100).Add ⟨5, by decide⟩ "b"
    (ByteSlice.bytes [1])) ⟨7, by decide⟩ "a" "b" (ByteSlice.bytes [2]) (by decide)).2.2⟩

/-! ## The guards of the cache built by `main` -/

/-- C9 evaluated on `main`: after `pageTracker := config{..., cache: *NewCache(...)}` the
reaper runs on the struct at address 0 and `getData` receives the struct at address 1;
both hold the same map, but their mutexes are distinct: with the reaper's mutex locked
(a sweep in flight) the `Lock` of `Cache.Add` or `Cache.Get` through `getData` still
succeeds, while a second `Lock` of the reaper's own mutex would have to wait. -/
theorem main_reaper_guard_differs :
    ∃ (newCache pageTrackerCache : Nat) (mem : Memory),
      mainInit = some (pageTrackerCache, mem) ∧
      mem.reapers = [newCache] ∧
      newCache ≠ pageTrackerCache ∧
      mem.mapOf newCache = some 0 ∧
      mem.mapOf pageTrackerCache = some 0 ∧
      ((mem.Lock newCache).bind (fun m => m.Lock pageTrackerCache)).isSome = true ∧
      (mem.Lock newCache).bind (fun m => m.Lock newCache) = none :=
  ⟨0, 1,
    { structs := [(0, { cache := 0, mu := false, interval := hundredSeconds }),
                  (1, { cache := 0, mu := false, interval := hundredSeconds })],
      maps := 1, reapers := [0] },
    by decide, by decide, by decide, by decide, by decide, by decide, by decide⟩

/-! ## Argument extraction in the command loop -/

/-- Splitting always yields at least one word, so `cmdExp[0]` is in range. -/
theorem splitSpaces_ne_nil (cs cur : List Char) : splitSpaces cs cur ≠ [] := by
  induction cs generalizing cur with
  | nil => simp [splitSpaces]
  | cons c cs ih =>
    unfold splitSpaces
    split_ifs
    · simp
    · exact ih _

/-- The rounds of the command loop that panic are exactly those whose line is the
single word `inspect`. -/
theorem dispatch_panics_iff (text : String) :
    (∃ e, dispatch text = Except.error e) ↔ Split text = ["inspect"] := by
  unfold dispatch
  by_cases hlen : text.length = 0
  · rw [if_pos hlen]
    have hdata : text.data = [] := List.length_eq_zero.mp hlen
    have hsplit : Split text = [""] := by
      unfold Split
      rw [hdata]
      rfl
    rw [hsplit]
    constructor
    · rintro ⟨e, he⟩
      cases he
    · intro h
      exact absurd h (by decide)
  · rw [if_neg hlen]
    simp only
    cases hs : Split text with
    | nil => exact absurd hs (splitSpaces_ne_nil _ _)
    | cons w rest =>
      have h0 : index (w :: rest) 0 = Except.ok w := rfl
      rw [h0]
      simp only
      by_cases hmem : w ∈ getCommands
      · rw [if_pos hmem]
        cases rest with
        | nil =>
          have hlen1 : ¬ ([w].length > 1) := by simp
          by_cases hi : w = "inspect"
          · subst hi
            constructor
            · intro _
              rfl
            · intro _
              exact ⟨"index out of range", rfl⟩
          · have hc1 : ¬ (w = "explore" ∧ [w].length > 1) := fun h => hlen1 h.2
            have hc2 : ¬ (w = "catch" ∧ [w].length > 1 ∨ w = "inspect") := by
              rintro (h | h)
              · exact hlen1 h.2
              · exact hi h
            rw [if_neg hc1]
            simp only
            rw [if_neg hc2]
            simp only
            constructor
            · rintro ⟨e, he⟩
              cases he
            · intro h
              exact absurd (List.cons.inj h).1 hi
        | cons r rest =>
          have h1 : index (w :: r :: rest) 1 = Except.ok r := rfl
          rw [h1]
          constructor
          · rintro ⟨e, he⟩
            split_ifs at he
          · intro h
            cases h
      · rw [if_neg hmem]
        constructor
        · rintro ⟨e, he⟩
          cases he
        · intro h
          have hw : w = "inspect" := (List.cons.inj h).1
          rw [hw] at hmem
          exact absurd (by decide) hmem

/-- C11 evaluated on `main`: the line `inspect` passes the command lookup and then
reads `cmdExp[1]` of a one-word list, a run-time panic, where the claim promises the
empty string; the lines `explore` and `catch` give the empty string, and with a second
word all three commands pass that word. -/
theorem dispatch_inspect_alone_panics :
    Split "inspect" = ["inspect"] ∧
    dispatch "inspect" = Except.error "index out of range" ∧
    dispatch "explore" = Except.ok (Dispatch.call "explore" "" "") ∧
    dispatch "catch" = Except.ok (Dispatch.call "catch" "" "") ∧
    dispatch "explore canalave-city-area"
      = Except.ok (Dispatch.call "explore" "canalave-city-area" "") ∧
    dispatch "catch pikachu" = Except.ok (Dispatch.call "catch" "" "pikachu") ∧
    dispatch "inspect pikachu" = Except.ok (Dispatch.call "inspect" "" "pikachu") :=
  ⟨by decide, rfl, rfl, rfl, rfl, rfl, rfl⟩

end Pokedex
